import Mathlib

/-!
Shallow embedding of the segmented state-driven delay-effect pipeline
(`src/Effects/audio_effects.py`, `src/Effects/perlin_noise.py`,
`src/Effects/Delay_Effect/delay_effect.py`,
`src/Metadata/delay_metadata_generate.py`).

Audio samples, gains, delay times and noise values are modelled as
rationals; Python `int(...)` truncation-toward-zero is `pyInt`; Python
`range(a, b, s)` (positive step) is `pyRange`.  External collaborators
(the C Perlin-noise primitive, numpy's RNG, file I/O, librosa feature
extraction) enter as function parameters, exactly at the call sites where
the source invokes them.
-/

namespace GenAudio

/-- Python `int(q)` for a real-valued `q`: truncation toward zero. -/
def pyInt (q : ℚ) : ℤ := if 0 ≤ q then ⌊q⌋ else ⌈q⌉

/-- Python `range(a, b, s)` for a positive step `s`:
`a, a + s, a + 2*s, …` while `< b`. -/
def pyRange (a b s : ℕ) : List ℕ :=
  (List.range ((b - a + s - 1) / s)).map (fun k => a + k * s)

/-- The three delay-intensity states of
`src/Effects/Delay_Effect/delay_effect.py` (`"short"`, `"medium"`, `"long"`). -/
inductive State : Type
  | short
  | medium
  | long
deriving DecidableEq, Repr, Inhabited

/-- `DELAY_STATES_TIMES` of `src/Effects/Delay_Effect/delay_effect.py`
lines 15–22: `round(0.001 * x, 3)` over the literal Python ranges; in exact
rational arithmetic that rounding is just `x / 1000`. -/
def DELAY_STATES_TIMES : State → List ℚ
  | .short => (pyRange 20 80 2).map (fun (x : ℕ) => (x : ℚ) / 1000)
  | .medium => (pyRange 80 350 10).map (fun (x : ℕ) => (x : ℚ) / 1000)
  | .long => (pyRange 350 1501 40).map (fun (x : ℕ) => (x : ℚ) / 1000)

/-- The state classification of
`src/Effects/Delay_Effect/delay_effect.py` lines 81–86, with
`STATE_THRESHOLDS = [0.33, 0.66]` (line 26):
`noise_val < 0.33 → "short"`, `elif noise_val < 0.66 → "medium"`,
`else → "long"`. -/
def classify (noise_val : ℚ) : State :=
  if noise_val < 33 / 100 then .short
  else if noise_val < 66 / 100 then .medium
  else .long

/-- The delay-time selection of
`src/Effects/Delay_Effect/delay_effect.py` lines 89–92:
`delay_idx = int(delay_noise_val * len(state_times)) % len(state_times)`;
`delay_time = state_times[delay_idx]`. -/
def selectDelay (state : State) (delay_noise_val : ℚ) : ℚ :=
  (DELAY_STATES_TIMES state).getD
    ((pyInt (delay_noise_val * ((DELAY_STATES_TIMES state).length : ℚ))).toNat %
      (DELAY_STATES_TIMES state).length) 0

/-- `DelayEffect.process` of `src/Effects/audio_effects.py` lines 56–73:
`delay_in_samples = int(delay_time * sample_rate)`;
`output_audio = np.copy(input_audio)`;
`if delay_in_samples > 0: output_audio[delay_in_samples:] += gain * input_audio[:-delay_in_samples]`.
The numpy slice statement sets, for each in-range index `i ≥ d`,
`output[i] = input[i] + gain * input[i - d]` (the right-hand side reads the
untouched `input_audio`); all other positions keep the copied value. -/
def delayProcess (sample_rate : ℤ) (delay_time gain : ℚ) (input_audio : List ℚ) : List ℚ :=
  if 0 < pyInt (delay_time * (sample_rate : ℚ)) then
    (List.range input_audio.length).map (fun i =>
      if (pyInt (delay_time * (sample_rate : ℚ))).toNat ≤ i then
        input_audio.getD i 0 +
          gain * input_audio.getD (i - (pyInt (delay_time * (sample_rate : ℚ))).toNat) 0
      else input_audio.getD i 0)
  else
    input_audio

/-- Segment start of the splitting loop in
`src/Effects/Delay_Effect/delay_effect.py` lines 59–68:
`segment_len = len(input_audio) // SEGMENT_COUNT`; `start = i * segment_len`. -/
def segStart (total segment_count i : ℕ) : ℕ := i * (total / segment_count)

/-- Segment end of the splitting loop in
`src/Effects/Delay_Effect/delay_effect.py` lines 71–74:
`end = start + segment_len if i < SEGMENT_COUNT - 1 else len(input_audio)`. -/
def segEnd (total segment_count i : ℕ) : ℕ :=
  if i < segment_count - 1 then i * (total / segment_count) + total / segment_count else total

/-- The list of segments `input_audio[start:end]` cut by the pipeline loop
(`src/Effects/Delay_Effect/delay_effect.py` lines 67–77; `SEGMENT_COUNT`
is the hard-coded constant 10, kept here as a parameter). -/
def pipelineSegments (input_audio : List ℚ) (segment_count : ℕ) : List (List ℚ) :=
  (List.range segment_count).map (fun i =>
    (input_audio.drop (segStart input_audio.length segment_count i)).take
      (segEnd input_audio.length segment_count i - segStart input_audio.length segment_count i))

/-- One entry of the pipeline's `state_sequence`
(`src/Effects/Delay_Effect/delay_effect.py` lines 100–104). -/
structure SegmentInfo : Type where
  segment_index : ℕ
  state : State
  delay_time : ℚ
deriving DecidableEq, Repr, Inhabited

/-- The per-file body of `process_data_delay_effect`
(`src/Effects/Delay_Effect/delay_effect.py` lines 58–107): split into
`segment_count` segments, classify each segment's state from `stateNoise`
(the one Perlin sequence drawn at line 65), select its delay time from the
fresh per-segment draw `delayNoise i` (line 90; only index `i` is used,
line 91), apply `DelayEffect(..., gain=0.5).process`, and concatenate.
Returns `(np.concatenate(segments), state_sequence)`. -/
def processDataDelayEffect (input_audio : List ℚ) (sample_rate : ℤ) (segment_count : ℕ)
    (stateNoise : List ℚ) (delayNoise : ℕ → List ℚ) : List ℚ × List SegmentInfo :=
  (((List.range segment_count).map (fun i =>
      delayProcess sample_rate
        (selectDelay (classify (stateNoise.getD i 0)) ((delayNoise i).getD i 0)) (1 / 2)
        ((input_audio.drop (segStart input_audio.length segment_count i)).take
          (segEnd input_audio.length segment_count i -
            segStart input_audio.length segment_count i)))).flatten,
   (List.range segment_count).map (fun i =>
      (⟨i, classify (stateNoise.getD i 0),
        selectDelay (classify (stateNoise.getD i 0)) ((delayNoise i).getD i 0)⟩ : SegmentInfo)))

/-- Segment start recomputed by `extract_delayed_metadata`
(`src/Metadata/delay_metadata_generate.py` lines 56, 61):
`segment_len = len(mono_audio) // file_meta["segment_count"]`;
`start = i * segment_len`. -/
def metaSegStart (total segment_count i : ℕ) : ℕ := i * (total / segment_count)

/-- Segment end recomputed by `extract_delayed_metadata`
(`src/Metadata/delay_metadata_generate.py` line 62):
`end = start + segment_len if i < file_meta["segment_count"] - 1 else len(mono_audio)`. -/
def metaSegEnd (total segment_count i : ℕ) : ℕ :=
  if i < segment_count - 1 then i * (total / segment_count) + total / segment_count else total

/-- One label record assembled by `extract_delayed_metadata`
(`src/Metadata/delay_metadata_generate.py` lines 77–97), restricted to the
fields computed from the state sequence itself; the acoustic feature
fields (rms, zero-crossing rate, spectral features, mfcc) come from the
external librosa/numpy capability and are outside the embedding. -/
structure LabelRecord : Type where
  state : State
  delay_time_ms : ℚ
  segment_index : ℕ
  next_state : Option State
deriving DecidableEq, Repr, Inhabited

/-- The per-segment record-assembly loop of `extract_delayed_metadata`
(`src/Metadata/delay_metadata_generate.py` lines 60–99) on a successfully
replayed file: for `i, segment_info in enumerate(sequence)` build an entry
with the record fields from `segment_info`, and
`if i < len(sequence) - 1: entry["next_state"] = sequence[i + 1]["state"]`. -/
def extractRecords (sequence : List SegmentInfo) : List LabelRecord :=
  (List.range sequence.length).map (fun i =>
    { state := (sequence.getD i default).state
      delay_time_ms := (sequence.getD i default).delay_time * 1000
      segment_index := (sequence.getD i default).segment_index
      next_state :=
        if i < sequence.length - 1 then some ((sequence.getD (i + 1) default).state)
        else none })

/-- The min-max normalization of `generate_perlin_noise_sequence`
(`src/Effects/perlin_noise.py` line 29):
`(raw_values - raw_values.min()) / (raw_values.max() - raw_values.min())`,
with no guard on a zero denominator.  In the rational embedding a zero
denominator makes every quotient the junk value `0`; in the numpy source
the same unguarded division emits only a `RuntimeWarning` and fills the
array with `NaN` — in neither case is any error signalled. -/
def minMaxNormalize (raw_values : List ℚ) : List ℚ :=
  raw_values.map (fun x =>
    (x - (raw_values.min?).getD 0) / ((raw_values.max?).getD 0 - (raw_values.min?).getD 0))

/-- `generate_perlin_noise_sequence` (`src/Effects/perlin_noise.py`
lines 5–32) with its external collaborators as parameters: `offsets i`
models `np.random.uniform(0, 100, size=length)[i]` and `pnoise` the C
primitive `noise.pnoise1`.  `raw_values = [pnoise1(i * scale + offsets[i])
for i in range(length)]`, then min-max normalization. -/
def generatePerlinNoiseSequence (length : ℕ) (scale : ℚ)
    (pnoise : ℚ → ℚ) (offsets : ℕ → ℚ) : List ℚ :=
  minMaxNormalize ((List.range length).map (fun (i : ℕ) => pnoise ((i : ℚ) * scale + offsets i)))

/-- Per-segment processing outcome inside `extract_delayed_metadata`'s
`try` block: `some r` when the feature extraction for the segment succeeds
and the entry `r` is appended to the shared `metadata` list
(`src/Metadata/delay_metadata_generate.py` line 99), `none` when any
per-segment step raises (caught by the `except` at line 101). -/
abbrev SegOutcome (α : Type) := Option α

/-- The entries a single metadata file contributes to the shared
`metadata` accumulator, with a flag recording whether a failure was
printed.  Entries are appended one by one inside the `try`; the first
raising segment aborts the rest of the file but the entries already
appended stay (`src/Metadata/delay_metadata_generate.py` lines 60–102). -/
def collectSegments {α : Type} : List (SegOutcome α) → List α × Bool
  | [] => ([], false)
  | none :: _ => ([], true)
  | some a :: rest =>
    let r := collectSegments rest
    (a :: r.1, r.2)

/-- One file's pass of the `extract_delayed_metadata` batch loop
(`src/Metadata/delay_metadata_generate.py` lines 37–102): when the
referenced processed-audio file is missing, print and `continue` with no
entry appended (lines 49–51); otherwise run the per-segment loop,
appending entries until a segment raises.  Returns the entries this file
leaves in the shared `metadata` list and whether a skip/failure was
reported. -/
def extractFileRecords {α : Type} (audioExists : Bool) (segs : List (SegOutcome α)) :
    List α × Bool :=
  if audioExists then collectSegments segs else ([], true)

/-- The whole `extract_delayed_metadata` batch loop over its metadata
files: the shared `metadata` list is the in-order concatenation of each
file's contribution; an exception in one file is caught per file
(`except` at line 101), so the loop always continues with the next file. -/
def extractBatchRecords {α : Type} (files : List (Bool × List (SegOutcome α))) : List α :=
  (files.map (fun f => (extractFileRecords f.1 f.2).1)).flatten

/-- The two numpy arrays live in `DelayEffect.process`
(`src/Effects/audio_effects.py` lines 67–73): the caller's `input_audio`
and the freshly allocated `output_audio = np.copy(input_audio)`. -/
structure DelayMem : Type where
  inp : List ℚ
  out : List ℚ
deriving DecidableEq, Repr

/-- One element of the in-place numpy statement
`output_audio[delay_in_samples:] += gain * input_audio[:-delay_in_samples]`:
position `i` of `output_audio` is overwritten with
`output_audio[i] + gain * input_audio[i - d]`; `input_audio` is only read. -/
def delayStep (gain : ℚ) (d : ℕ) (m : DelayMem) (i : ℕ) : DelayMem :=
  { m with out := m.out.set i (m.out.getD i 0 + gain * m.inp.getD (i - d) 0) }

/-- `DelayEffect.process` as a state machine over the two arrays:
allocate `output_audio` as a copy of `input_audio`, then, when
`delay_in_samples > 0`, perform the in-place update at every index
`i ≥ delay_in_samples` in ascending order.  The final state holds both
arrays, so preservation of `inp` is exactly the claim that the caller's
array is untouched. -/
def delayRun (sample_rate : ℤ) (delay_time gain : ℚ) (input_audio : List ℚ) : DelayMem :=
  if 0 < pyInt (delay_time * (sample_rate : ℚ)) then
    (List.range input_audio.length).foldl
      (fun m i =>
        if (pyInt (delay_time * (sample_rate : ℚ))).toNat ≤ i then
          delayStep gain (pyInt (delay_time * (sample_rate : ℚ))).toNat m i
        else m)
      ⟨input_audio, input_audio⟩
  else ⟨input_audio, input_audio⟩

/-! ### Helper lemmas -/

lemma getD_map_range {α : Type} (f : ℕ → α) (d : α) {n i : ℕ} (h : i < n) :
    ((List.range n).map f).getD i d = f i := by
  rw [List.getD_eq_getElem _ _ (by simpa using h)]
  simp

lemma map_range_getD_self {α : Type} (l : List α) (d : α) :
    (List.range l.length).map (fun j => l.getD j d) = l := by
  apply List.ext_getElem (by simp)
  intro n h1 h2
  simp only [List.getElem_map, List.getElem_range]
  exact List.getD_eq_getElem _ _ h2

lemma getD_nonneg_of_forall {l : List ℚ} (h : ∀ x ∈ l, 0 ≤ x) (i : ℕ) : 0 ≤ l.getD i 0 := by
  rcases lt_or_le i l.length with hi | hi
  · rw [List.getD_eq_getElem _ _ hi]
    exact h _ (List.getElem_mem hi)
  · rw [List.getD_eq_default _ _ hi]

lemma flatten_take_chunks {α : Type} (l : List α) (L : ℕ) :
    ∀ n : ℕ, ((List.range n).map (fun i => (l.drop (i * L)).take L)).flatten = l.take (n * L) := by
  intro n
  induction n with
  | zero => simp
  | succ n ih =>
    rw [List.range_succ, List.map_append, List.flatten_append, ih]
    simp [Nat.succ_mul, List.take_add]

lemma DELAY_STATES_TIMES_length_pos (s : State) : 0 < (DELAY_STATES_TIMES s).length := by
  cases s <;> decide

lemma map_div1000_nonneg (l : List ℕ) : ∀ x ∈ l.map (fun (n : ℕ) => (n : ℚ) / 1000), 0 ≤ x := by
  intro x hx
  rw [List.mem_map] at hx
  obtain ⟨n, _, rfl⟩ := hx
  exact div_nonneg (Nat.cast_nonneg n) (by norm_num)

lemma DELAY_STATES_TIMES_nonneg (s : State) : ∀ x ∈ DELAY_STATES_TIMES s, 0 ≤ x := by
  cases s <;> exact map_div1000_nonneg _

lemma selectDelay_nonneg (s : State) (v : ℚ) : 0 ≤ selectDelay s v :=
  getD_nonneg_of_forall (DELAY_STATES_TIMES_nonneg s) _

lemma pyInt_of_nonneg {q : ℚ} (h : 0 ≤ q) : pyInt q = ⌊q⌋ := if_pos h

lemma pyInt_nonpos {q : ℚ} (h : q ≤ 0) : pyInt q ≤ 0 := by
  unfold pyInt
  split
  · have hq : q = 0 := le_antisymm h (by assumption)
    simp [hq]
  · exact Int.ceil_le.mpr (by exact_mod_cast h)

lemma delayProcess_nonpos_rate {sr : ℤ} {dt : ℚ} (g : ℚ) (input : List ℚ)
    (hsr : sr ≤ 0) (hdt : 0 ≤ dt) : delayProcess sr dt g input = input := by
  have hsr' : (sr : ℚ) ≤ 0 := by exact_mod_cast hsr
  have hq : dt * (sr : ℚ) ≤ 0 := mul_nonpos_of_nonneg_of_nonpos hdt hsr'
  have h := pyInt_nonpos hq
  unfold delayProcess
  rw [if_neg (by omega)]

lemma segment_chunk_bound {total sc i : ℕ} (hi : i < sc - 1) :
    i * (total / sc) + total / sc ≤ total :=
  calc i * (total / sc) + total / sc = (i + 1) * (total / sc) := by ring
    _ ≤ sc * (total / sc) := Nat.mul_le_mul_right _ (by omega)
    _ ≤ total := by rw [Nat.mul_comm]; exact Nat.div_mul_le_self total sc

lemma pipelineSegments_flatten (input : List ℚ) (m : ℕ) :
    (pipelineSegments input (m + 1)).flatten = input := by
  unfold pipelineSegments
  rw [List.range_succ, List.map_append]
  simp only [List.map_cons, List.map_nil, List.flatten_append, List.flatten_cons,
    List.flatten_nil, List.append_nil]
  have h1 : ((List.range m).map (fun i =>
      (input.drop (segStart input.length (m + 1) i)).take
        (segEnd input.length (m + 1) i - segStart input.length (m + 1) i))) =
      (List.range m).map (fun i =>
        (input.drop (i * (input.length / (m + 1)))).take (input.length / (m + 1))) := by
    apply List.map_congr_left
    intro i hi
    have him : i < m := List.mem_range.mp hi
    unfold segStart segEnd
    rw [if_pos (by omega)]
    congr 1
    exact Nat.add_sub_cancel_left _ _
  rw [h1, flatten_take_chunks]
  have h2 : segEnd input.length (m + 1) m - segStart input.length (m + 1) m =
      input.length - m * (input.length / (m + 1)) := by
    unfold segStart segEnd
    rw [if_neg (by omega)]
  have h3 : segStart input.length (m + 1) m = m * (input.length / (m + 1)) := rfl
  rw [h2, h3]
  have h4 : (input.drop (m * (input.length / (m + 1)))).take
      (input.length - m * (input.length / (m + 1))) =
      input.drop (m * (input.length / (m + 1))) :=
    List.take_of_length_le (by simp)
  rw [h4]
  exact List.take_append_drop _ input

lemma table_as_range (a b s n : ℕ) (h : (b - a + s - 1) / s = n) :
    (pyRange a b s).map (fun (x : ℕ) => (x : ℚ) / 1000) =
    (List.range n).map (fun (k : ℕ) => ((a + k * s : ℕ) : ℚ) / 1000) := by
  subst h
  unfold pyRange
  rw [List.map_map]
  rfl

lemma range_map_bounds (a s n : ℕ) (hn : 0 < n) :
    ∀ x ∈ (List.range n).map (fun (k : ℕ) => ((a + k * s : ℕ) : ℚ) / 1000),
      (a : ℚ) / 1000 ≤ x ∧ x ≤ ((a + (n - 1) * s : ℕ) : ℚ) / 1000 := by
  intro x hx
  rw [List.mem_map] at hx
  obtain ⟨k, hk, rfl⟩ := hx
  rw [List.mem_range] at hk
  have hub : a + k * s ≤ a + (n - 1) * s :=
    Nat.add_le_add_left (Nat.mul_le_mul_right s (by omega)) a
  constructor
  · rw [div_le_div_iff_of_pos_right (by norm_num : (0 : ℚ) < 1000)]
    exact_mod_cast Nat.le_add_right a (k * s)
  · rw [div_le_div_iff_of_pos_right (by norm_num : (0 : ℚ) < 1000)]
    exact_mod_cast hub

lemma range_map_mem (a s n k : ℕ) (hk : k < n) :
    ((a + k * s : ℕ) : ℚ) / 1000 ∈
      (List.range n).map (fun (j : ℕ) => ((a + j * s : ℕ) : ℚ) / 1000) :=
  List.mem_map.mpr ⟨k, List.mem_range.mpr hk, rfl⟩

lemma extractRecords_length (sequence : List SegmentInfo) :
    (extractRecords sequence).length = sequence.length := by
  simp [extractRecords]

lemma extractRecords_getD_next_state (sequence : List SegmentInfo) {i : ℕ}
    (hi : i < sequence.length) :
    ((extractRecords sequence).getD i default).next_state =
      if i < sequence.length - 1 then some ((sequence.getD (i + 1) default).state)
      else none := by
  unfold extractRecords
  rw [getD_map_range _ _ hi]

lemma extractRecords_getD_state (sequence : List SegmentInfo) {i : ℕ}
    (hi : i < sequence.length) :
    ((extractRecords sequence).getD i default).state = (sequence.getD i default).state := by
  unfold extractRecords
  rw [getD_map_range _ _ hi]

lemma collectSegments_all_some {α : Type} (pre : List α) :
    collectSegments (pre.map some) = (pre, false) := by
  induction pre with
  | nil => rfl
  | cons a t ih => simp [collectSegments, ih]

lemma collectSegments_prefix_failure {α : Type} (pre : List α) (post : List (SegOutcome α)) :
    collectSegments (pre.map some ++ none :: post) = (pre, true) := by
  induction pre with
  | nil => rfl
  | cons a t ih => simp [collectSegments, ih]

lemma processDataDelayEffect_nonpos_rate (input : List ℚ) (sample_rate : ℤ) (m : ℕ)
    (stateNoise : List ℚ) (delayNoise : ℕ → List ℚ) (hsr : sample_rate ≤ 0) :
    (processDataDelayEffect input sample_rate (m + 1) stateNoise delayNoise).1 = input ∧
    (processDataDelayEffect input sample_rate (m + 1) stateNoise delayNoise).2.length =
      m + 1 := by
  constructor
  · have h1 : (processDataDelayEffect input sample_rate (m + 1) stateNoise delayNoise).1 =
        ((List.range (m + 1)).map (fun i =>
          delayProcess sample_rate
            (selectDelay (classify (stateNoise.getD i 0)) ((delayNoise i).getD i 0)) (1 / 2)
            ((input.drop (segStart input.length (m + 1) i)).take
              (segEnd input.length (m + 1) i - segStart input.length (m + 1) i)))).flatten :=
      rfl
    have h2 : ((List.range (m + 1)).map (fun i =>
        delayProcess sample_rate
          (selectDelay (classify (stateNoise.getD i 0)) ((delayNoise i).getD i 0)) (1 / 2)
          ((input.drop (segStart input.length (m + 1) i)).take
            (segEnd input.length (m + 1) i - segStart input.length (m + 1) i)))) =
        (List.range (m + 1)).map (fun i =>
          (input.drop (segStart input.length (m + 1) i)).take
            (segEnd input.length (m + 1) i - segStart input.length (m + 1) i)) :=
      List.map_congr_left (fun i _ =>
        delayProcess_nonpos_rate _ _ hsr (selectDelay_nonneg _ _))
    rw [h1, h2]
    exact pipelineSegments_flatten input m
  · simp [processDataDelayEffect]

/-! ### Claim theorems -/

/-- C4: state classification is deterministic thresholding with the fixed
constants 0.33 and 0.66: a noise value below 0.33 classifies as short, one
in [0.33, 0.66) as medium, one at or above 0.66 as long; in particular
`classify 0 = short`, `classify 0.329 = short`, `classify 0.33 = medium`,
`classify 0.659 = medium`, `classify 0.66 = long`, `classify 1 = long`. -/
theorem C4_classify_thresholds :
    (∀ v : ℚ, v < 33 / 100 → classify v = .short) ∧
    (∀ v : ℚ, 33 / 100 ≤ v → v < 66 / 100 → classify v = .medium) ∧
    (∀ v : ℚ, 66 / 100 ≤ v → classify v = .long) ∧
    classify 0 = .short ∧ classify (329 / 1000) = .short ∧
    classify (33 / 100) = .medium ∧ classify (659 / 1000) = .medium ∧
    classify (66 / 100) = .long ∧ classify 1 = .long := by
  have h1 : ∀ v : ℚ, v < 33 / 100 → classify v = .short := by
    intro v h
    unfold classify
    rw [if_pos h]
  have h2 : ∀ v : ℚ, 33 / 100 ≤ v → v < 66 / 100 → classify v = .medium := by
    intro v ha hb
    unfold classify
    rw [if_neg (not_lt.mpr ha), if_pos hb]
  have h3 : ∀ v : ℚ, 66 / 100 ≤ v → classify v = .long := by
    intro v h
    unfold classify
    rw [if_neg (not_lt.mpr (le_trans (by norm_num) h)), if_neg (not_lt.mpr h)]
  exact ⟨h1, h2, h3, h1 0 (by norm_num), h1 _ (by norm_num), h2 _ (by norm_num) (by norm_num),
    h2 _ (by norm_num) (by norm_num), h3 _ (by norm_num), h3 _ (by norm_num)⟩

/-- C4 witness: the three threshold branches at the concrete noise values
0.1, 0.5 and 0.9. -/
theorem C4_classify_thresholds_witness :
    classify (1 / 10) = .short ∧ classify (1 / 2) = .medium ∧ classify (9 / 10) = .long :=
  ⟨C4_classify_thresholds.1 _ (by norm_num),
   C4_classify_thresholds.2.1 _ (by norm_num) (by norm_num),
   C4_classify_thresholds.2.2.1 _ (by norm_num)⟩

/-- C5: for every state and every noise value in [0, 1] (including exactly
1), the selected delay time is the entry of the state's fixed table at
index `floor(noise * length) mod length`, hence always a member of the
state's literal set and never interpolated; at the boundary value 1 the
modulo wraps index `length` around to 0. -/
theorem C5_selectDelay_member (s : State) (v : ℚ) (h0 : 0 ≤ v) (h1 : v ≤ 1) :
    selectDelay s v ∈ DELAY_STATES_TIMES s ∧
    selectDelay s v = (DELAY_STATES_TIMES s).getD
      ((⌊v * ((DELAY_STATES_TIMES s).length : ℚ)⌋).toNat % (DELAY_STATES_TIMES s).length) 0 ∧
    (v = 1 → selectDelay s v = (DELAY_STATES_TIMES s).getD 0 0) := by
  have hlen := DELAY_STATES_TIMES_length_pos s
  have hq : 0 ≤ v * ((DELAY_STATES_TIMES s).length : ℚ) := mul_nonneg h0 (by positivity)
  have hsel : selectDelay s v = (DELAY_STATES_TIMES s).getD
      ((⌊v * ((DELAY_STATES_TIMES s).length : ℚ)⌋).toNat % (DELAY_STATES_TIMES s).length) 0 := by
    unfold selectDelay
    rw [pyInt_of_nonneg hq]
  refine ⟨?_, hsel, ?_⟩
  · rw [hsel]
    have hidx : (⌊v * ((DELAY_STATES_TIMES s).length : ℚ)⌋).toNat %
        (DELAY_STATES_TIMES s).length < (DELAY_STATES_TIMES s).length := Nat.mod_lt _ hlen
    rw [List.getD_eq_getElem _ _ hidx]
    exact List.getElem_mem hidx
  · intro hv
    subst hv
    rw [hsel, one_mul, Int.floor_natCast]
    simp [Nat.mod_self]

/-- C5 witness: the boundary noise value 1 on the short table still
selects a member of the table. -/
theorem C5_selectDelay_member_witness :
    selectDelay .short 1 ∈ DELAY_STATES_TIMES .short :=
  (C5_selectDelay_member .short 1 (by norm_num) (by norm_num)).1

/-- C3 counterexample: the short table, generated by `range(20, 80, 2)`,
has 30 members (20, 22, …, 78 milliseconds), not the 29 the claim
states. -/
theorem C3_tables_counterexample :
    (DELAY_STATES_TIMES .short).length = 30 ∧ (DELAY_STATES_TIMES .short).length ≠ 29 := by
  constructor <;> decide

/-- C3 amended: the three tables are the arithmetic progressions
20 + 2k (k < 30), 80 + 10k (k < 27) and 350 + 40k (k < 29) milliseconds,
so short/medium/long have exactly 30/27/29 members; the short table runs
from 0.020 to 0.078 step 0.002, the medium table from 0.080 to 0.340 step
0.010, and the long table from 0.350 to 1.470 (not 1.490) step 0.040,
each bound being attained by a member. -/
theorem C3_tables_amended :
    DELAY_STATES_TIMES .short =
      (List.range 30).map (fun (k : ℕ) => ((20 + k * 2 : ℕ) : ℚ) / 1000) ∧
    DELAY_STATES_TIMES .medium =
      (List.range 27).map (fun (k : ℕ) => ((80 + k * 10 : ℕ) : ℚ) / 1000) ∧
    DELAY_STATES_TIMES .long =
      (List.range 29).map (fun (k : ℕ) => ((350 + k * 40 : ℕ) : ℚ) / 1000) ∧
    (DELAY_STATES_TIMES .short).length = 30 ∧
    (DELAY_STATES_TIMES .medium).length = 27 ∧
    (DELAY_STATES_TIMES .long).length = 29 ∧
    (20 / 1000 : ℚ) ∈ DELAY_STATES_TIMES .short ∧
    (78 / 1000 : ℚ) ∈ DELAY_STATES_TIMES .short ∧
    (∀ x ∈ DELAY_STATES_TIMES .short, 20 / 1000 ≤ x ∧ x ≤ 78 / 1000) ∧
    (80 / 1000 : ℚ) ∈ DELAY_STATES_TIMES .medium ∧
    (340 / 1000 : ℚ) ∈ DELAY_STATES_TIMES .medium ∧
    (∀ x ∈ DELAY_STATES_TIMES .medium, 80 / 1000 ≤ x ∧ x ≤ 340 / 1000) ∧
    (350 / 1000 : ℚ) ∈ DELAY_STATES_TIMES .long ∧
    (1470 / 1000 : ℚ) ∈ DELAY_STATES_TIMES .long ∧
    (∀ x ∈ DELAY_STATES_TIMES .long, 350 / 1000 ≤ x ∧ x ≤ 1470 / 1000) := by
  have hshort : DELAY_STATES_TIMES .short =
      (List.range 30).map (fun (k : ℕ) => ((20 + k * 2 : ℕ) : ℚ) / 1000) :=
    table_as_range 20 80 2 30 (by norm_num)
  have hmed : DELAY_STATES_TIMES .medium =
      (List.range 27).map (fun (k : ℕ) => ((80 + k * 10 : ℕ) : ℚ) / 1000) :=
    table_as_range 80 350 10 27 (by norm_num)
  have hlong : DELAY_STATES_TIMES .long =
      (List.range 29).map (fun (k : ℕ) => ((350 + k * 40 : ℕ) : ℚ) / 1000) :=
    table_as_range 350 1501 40 29 (by norm_num)
  refine ⟨hshort, hmed, hlong, by rw [hshort]; simp, by rw [hmed]; simp, by rw [hlong]; simp,
    ?_, ?_, ?_, ?_, ?_, ?_, ?_, ?_, ?_⟩
  · rw [hshort]
    have := range_map_mem 20 2 30 0 (by norm_num)
    norm_num at this ⊢
    exact this
  · rw [hshort]
    have := range_map_mem 20 2 30 29 (by norm_num)
    norm_num at this ⊢
    exact this
  · rw [hshort]
    intro x hx
    have := range_map_bounds 20 2 30 (by norm_num) x hx
    norm_num at this ⊢
    exact this
  · rw [hmed]
    have := range_map_mem 80 10 27 0 (by norm_num)
    norm_num at this ⊢
    exact this
  · rw [hmed]
    have := range_map_mem 80 10 27 26 (by norm_num)
    norm_num at this ⊢
    exact this
  · rw [hmed]
    intro x hx
    have := range_map_bounds 80 10 27 (by norm_num) x hx
    norm_num at this ⊢
    exact this
  · rw [hlong]
    have := range_map_mem 350 40 29 0 (by norm_num)
    norm_num at this ⊢
    exact this
  · rw [hlong]
    have := range_map_mem 350 40 29 28 (by norm_num)
    norm_num at this ⊢
    exact this
  · rw [hlong]
    intro x hx
    have := range_map_bounds 350 40 29 (by norm_num) x hx
    norm_num at this ⊢
    exact this

/-- C3 witness: the table bounds applied to the concrete members 0.020 of
the short table and 1.470 of the long table. -/
theorem C3_tables_amended_witness :
    ((20 / 1000 : ℚ) ≤ 20 / 1000 ∧ (20 / 1000 : ℚ) ≤ 78 / 1000) ∧
    ((350 / 1000 : ℚ) ≤ 1470 / 1000 ∧ (1470 / 1000 : ℚ) ≤ 1470 / 1000) :=
  ⟨C3_tables_amended.2.2.2.2.2.2.2.2.1 _ C3_tables_amended.2.2.2.2.2.2.1,
   C3_tables_amended.2.2.2.2.2.2.2.2.2.2.2.2.2.2 _ C3_tables_amended.2.2.2.2.2.2.2.2.2.2.2.2.2.1⟩

/-- C1 counterexample: at `delay_time = 0`, `sample_rate = 1`, `gain = 1`
the claim predicts the self-mixed output `[input[0] + 1 * input[0]] = [2]`
on the input `[1]`, but `DelayEffect.process` guards the mixing with
`if delay_in_samples > 0` and returns the plain copy `[1]`. -/
theorem C1_delay_zero_counterexample :
    delayProcess 1 0 1 [(1 : ℚ)] = [(1 : ℚ)] ∧ (1 : ℚ) + 1 * 1 = 2 ∧
    [(1 : ℚ)] ≠ [(2 : ℚ)] := by
  refine ⟨?_, by norm_num, by simp⟩
  unfold delayProcess pyInt
  norm_num

/-- C1 amended: with `d = floor(delay_time * sample_rate)`, the output of
`DelayEffect.process` has the input's length; when `d > 0` every index
`i < d` carries `input[i]` and every index `i ≥ d` carries
`input[i] + gain * input[i - d]`; but when `d = 0` (in particular when
`delay_time = 0`) the guard `if delay_in_samples > 0` skips the mixing and
the output is exactly the input, with no self-mix. -/
theorem C1_delayProcess_formula (sample_rate : ℤ) (delay_time gain : ℚ) (input : List ℚ)
    (hsr : 0 < sample_rate) (hdt : 0 ≤ delay_time) :
    (delayProcess sample_rate delay_time gain input).length = input.length ∧
    (0 < (⌊delay_time * (sample_rate : ℚ)⌋).toNat →
      ∀ i < input.length,
        (delayProcess sample_rate delay_time gain input).getD i 0 =
          if i < (⌊delay_time * (sample_rate : ℚ)⌋).toNat then input.getD i 0
          else input.getD i 0 +
            gain * input.getD (i - (⌊delay_time * (sample_rate : ℚ)⌋).toNat) 0) ∧
    ((⌊delay_time * (sample_rate : ℚ)⌋).toNat = 0 →
      delayProcess sample_rate delay_time gain input = input) := by
  have hsr' : (0 : ℚ) ≤ (sample_rate : ℚ) := by exact_mod_cast le_of_lt hsr
  have hq : 0 ≤ delay_time * (sample_rate : ℚ) := mul_nonneg hdt hsr'
  have hpy : pyInt (delay_time * (sample_rate : ℚ)) = ⌊delay_time * (sample_rate : ℚ)⌋ :=
    pyInt_of_nonneg hq
  by_cases hd : 0 < ⌊delay_time * (sample_rate : ℚ)⌋
  · have hd0 : delayProcess sample_rate delay_time gain input =
        (List.range input.length).map (fun i =>
          if (⌊delay_time * (sample_rate : ℚ)⌋).toNat ≤ i then
            input.getD i 0 +
              gain * input.getD (i - (⌊delay_time * (sample_rate : ℚ)⌋).toNat) 0
          else input.getD i 0) := by
      unfold delayProcess
      rw [hpy, if_pos hd]
    refine ⟨by rw [hd0]; simp, ?_, ?_⟩
    · intro _ i hi
      rw [hd0, getD_map_range _ _ hi]
      rcases lt_or_le i (⌊delay_time * (sample_rate : ℚ)⌋).toNat with hc | hc
      · rw [if_neg (by omega), if_pos hc]
      · rw [if_pos hc, if_neg (by omega)]
    · intro h0
      omega
  · have hd0 : delayProcess sample_rate delay_time gain input = input := by
      unfold delayProcess
      rw [hpy, if_neg hd]
    exact ⟨by rw [hd0], fun hc => by omega, fun _ => hd0⟩

/-- C1 witness: the amended formula applied at sample rate 2,
delay time 1, gain 1 on a concrete 2-sample input. -/
theorem C1_delayProcess_formula_witness :
    (delayProcess 2 1 1 [(1 : ℚ), 5]).length = ([(1 : ℚ), 5]).length :=
  (C1_delayProcess_formula 2 1 1 [(1 : ℚ), 5] (by norm_num) (by norm_num)).1

/-- C2: for every buffer and every positive segment count, the pipeline
splits the buffer into exactly `segment_count` contiguous, non-overlapping,
ordered segments: the first `segment_count - 1` segments have length
`total / segment_count` and the final segment has the remaining
`total - (total / segment_count) * (segment_count - 1)` samples;
concatenating the segments in order reproduces the buffer exactly (so the
lengths sum to the total and no sample is dropped or duplicated), and
`extract_delayed_metadata` recomputes identical boundaries. -/
theorem C2_segmentation_correct (input : List ℚ) (segment_count : ℕ) (hsc : 0 < segment_count) :
    (pipelineSegments input segment_count).length = segment_count ∧
    (∀ i, i < segment_count - 1 →
      ((pipelineSegments input segment_count).getD i []).length =
        input.length / segment_count) ∧
    ((pipelineSegments input segment_count).getD (segment_count - 1) []).length =
      input.length - (input.length / segment_count) * (segment_count - 1) ∧
    (pipelineSegments input segment_count).flatten = input ∧
    ((pipelineSegments input segment_count).map List.length).sum = input.length ∧
    (∀ i, metaSegStart input.length segment_count i = segStart input.length segment_count i ∧
      metaSegEnd input.length segment_count i = segEnd input.length segment_count i) := by
  obtain ⟨m, rfl⟩ : ∃ m, segment_count = m + 1 := ⟨segment_count - 1, by omega⟩
  have hflat := pipelineSegments_flatten input m
  refine ⟨by simp [pipelineSegments], ?_, ?_, hflat, ?_, fun i => ⟨rfl, rfl⟩⟩
  · intro i hi
    have him : i < m := by omega
    unfold pipelineSegments
    rw [getD_map_range _ _ (by omega : i < m + 1)]
    have heq : segEnd input.length (m + 1) i - segStart input.length (m + 1) i =
        input.length / (m + 1) := by
      unfold segStart segEnd
      rw [if_pos (by omega)]
      exact Nat.add_sub_cancel_left _ _
    rw [heq]
    unfold segStart
    rw [List.length_take, List.length_drop]
    have hb : i * (input.length / (m + 1)) + input.length / (m + 1) ≤ input.length :=
      segment_chunk_bound (by omega)
    omega
  · unfold pipelineSegments
    rw [getD_map_range _ _ (by omega : m + 1 - 1 < m + 1)]
    have heq : segEnd input.length (m + 1) (m + 1 - 1) -
        segStart input.length (m + 1) (m + 1 - 1) =
        input.length - (m + 1 - 1) * (input.length / (m + 1)) := by
      unfold segStart segEnd
      rw [if_neg (by omega)]
    rw [heq]
    unfold segStart
    rw [List.length_take, List.length_drop, Nat.mul_comm (input.length / (m + 1)) (m + 1 - 1)]
    omega
  · have hlen := congrArg List.length hflat
    rw [List.length_flatten] at hlen
    exact hlen

/-- C2 witness: a 5-sample buffer split into 2 segments concatenates back
to the original buffer. -/
theorem C2_segmentation_correct_witness :
    (pipelineSegments [(1 : ℚ), 2, 3, 4, 5] 2).flatten = [(1 : ℚ), 2, 3, 4, 5] :=
  (C2_segmentation_correct [(1 : ℚ), 2, 3, 4, 5] 2 (by norm_num)).2.2.2.1

/-- C6: replaying a pipeline state sequence of length `segment_count`
through the metadata extractor's record-assembly loop yields exactly
`segment_count` label records in segment order; the last record has no
`next_state`, and each earlier record's `next_state` equals the state of
the following record. -/
theorem C6_roundtrip_labels (input : List ℚ) (sample_rate : ℤ) (segment_count : ℕ)
    (stateNoise : List ℚ) (delayNoise : ℕ → List ℚ) :
    (processDataDelayEffect input sample_rate segment_count stateNoise delayNoise).2.length =
      segment_count ∧
    (extractRecords
        (processDataDelayEffect input sample_rate segment_count stateNoise delayNoise).2).length =
      segment_count ∧
    (∀ i, i + 1 < segment_count →
      ((extractRecords
          (processDataDelayEffect input sample_rate segment_count stateNoise
            delayNoise).2).getD i default).next_state =
        some (((extractRecords
          (processDataDelayEffect input sample_rate segment_count stateNoise
            delayNoise).2).getD (i + 1) default).state)) ∧
    (0 < segment_count →
      ((extractRecords
          (processDataDelayEffect input sample_rate segment_count stateNoise
            delayNoise).2).getD (segment_count - 1) default).next_state = none) := by
  have hseq : (processDataDelayEffect input sample_rate segment_count stateNoise
      delayNoise).2.length = segment_count := by
    simp [processDataDelayEffect]
  refine ⟨hseq, by rw [extractRecords_length, hseq], ?_, ?_⟩
  · intro i hi
    rw [extractRecords_getD_next_state _ (by rw [hseq]; omega),
      extractRecords_getD_state _ (by rw [hseq]; omega), hseq]
    rw [if_pos (by omega)]
  · intro hpos
    rw [extractRecords_getD_next_state _ (by rw [hseq]; omega), hseq]
    rw [if_neg (by omega)]

/-- C6 witness: on a concrete 2-segment pipeline run, record 0's
`next_state` equals record 1's state. -/
theorem C6_roundtrip_labels_witness :
    ((extractRecords (processDataDelayEffect [(1 : ℚ), 2] 1 2 [0, 0]
        (fun _ => [0, 0])).2).getD 0 default).next_state =
      some (((extractRecords (processDataDelayEffect [(1 : ℚ), 2] 1 2 [0, 0]
        (fun _ => [0, 0])).2).getD 1 default).state) :=
  (C6_roundtrip_labels [(1 : ℚ), 2] 1 2 [0, 0] (fun _ => [0, 0])).2.2.1 0 (by norm_num)

/-- C7: the generator's min-max normalization has no guard for a constant
raw sequence.  For length 1 the raw sequence is always a single value, the
denominator `max - min` is 0, and the unguarded division still returns a
value (`[0]` under the rational junk convention `x / 0 = 0`; in the numpy
source, `NaN` with only a `RuntimeWarning`): no `NumericError` is ever
signalled on this path, for any Perlin primitive, offsets and scale. -/
theorem C7_degenerate_normalization_silent (scale : ℚ) (pnoise : ℚ → ℚ) (offsets : ℕ → ℚ) :
    generatePerlinNoiseSequence 1 scale pnoise offsets = [0] ∧
    (((List.range 1).map (fun (i : ℕ) => pnoise ((i : ℚ) * scale + offsets i))).max?).getD 0 -
      (((List.range 1).map (fun (i : ℕ) =>
        pnoise ((i : ℚ) * scale + offsets i))).min?).getD 0 = 0 := by
  constructor
  · show [(pnoise (((0 : ℕ) : ℚ) * scale + offsets 0) -
        pnoise (((0 : ℕ) : ℚ) * scale + offsets 0)) /
        (pnoise (((0 : ℕ) : ℚ) * scale + offsets 0) -
        pnoise (((0 : ℕ) : ℚ) * scale + offsets 0))] = [0]
    simp
  · show pnoise (((0 : ℕ) : ℚ) * scale + offsets 0) -
        pnoise (((0 : ℕ) : ℚ) * scale + offsets 0) = 0
    simp

/-- C8 counterexample: a file whose audio exists, whose first segment
succeeds and whose second segment raises contributes the one already
appended record to the shared metadata list — not zero records as the
claim states («no partial LabelRecord emitted»). -/
theorem C8_partial_record_counterexample :
    extractFileRecords true
        [some (⟨State.short, 0, 0, none⟩ : LabelRecord), none] =
      ([(⟨State.short, 0, 0, none⟩ : LabelRecord)], true) ∧
    [(⟨State.short, 0, 0, none⟩ : LabelRecord)] ≠ ([] : List LabelRecord) := by
  exact ⟨rfl, by simp⟩

/-- C8 amended: a missing processed-audio file is skipped with no record
and a report; a file whose segment processing raises stops at the raising
segment with a report and the batch continues — but the records already
appended for its earlier segments stay in the shared metadata list, so a
partial record set is emitted for that file; only a file that fails before
its first append (e.g. missing audio) contributes nothing. -/
theorem C8_failure_isolation (α : Type) (pre : List α) (post segs : List (SegOutcome α))
    (files1 files2 : List (Bool × List (SegOutcome α))) :
    extractFileRecords false segs = ([], true) ∧
    extractFileRecords true (pre.map some ++ none :: post) = (pre, true) ∧
    extractFileRecords true (pre.map some) = (pre, false) ∧
    extractBatchRecords (files1 ++ files2) =
      extractBatchRecords files1 ++ extractBatchRecords files2 := by
  refine ⟨rfl, ?_, ?_, ?_⟩
  · unfold extractFileRecords
    rw [if_pos rfl]
    exact collectSegments_prefix_failure pre post
  · unfold extractFileRecords
    rw [if_pos rfl]
    exact collectSegments_all_some pre
  · unfold extractBatchRecords
    rw [List.map_append, List.flatten_append]

/-- C9 counterexample: with the invalid configuration `sample_rate = 0`
the pipeline is not rejected: it proceeds to split the concrete 4-sample
buffer into 2 segments and apply the effect (which at nonpositive
`delay_in_samples` leaves the samples unchanged), producing a full-length
output and two segment descriptors instead of signalling any
configuration error. -/
theorem C9_no_rejection_counterexample :
    (processDataDelayEffect [(1 : ℚ), 2, 3, 4] 0 2 [0, 0] (fun _ => [0, 0])).1 =
      [(1 : ℚ), 2, 3, 4] ∧
    (processDataDelayEffect [(1 : ℚ), 2, 3, 4] 0 2 [0, 0] (fun _ => [0, 0])).2.length = 2 :=
  processDataDelayEffect_nonpos_rate [(1 : ℚ), 2, 3, 4] 0 1 [0, 0] (fun _ => [0, 0])
    (by norm_num)

/-- C9 amended: the code contains no configuration validation at all:
`SEGMENT_COUNT` is the hard-coded constant 10 (never ≤ 0), and a
`sample_rate ≤ 0` is never rejected — processing proceeds through every
segment, where `int(delay_time * sample_rate) ≤ 0` disables the mixing, so
the pipeline returns the input unchanged together with a full
`segment_count`-long state sequence instead of failing at startup. -/
theorem C9_no_config_validation (input : List ℚ) (sample_rate : ℤ) (segment_count : ℕ)
    (stateNoise : List ℚ) (delayNoise : ℕ → List ℚ)
    (hsr : sample_rate ≤ 0) (hsc : 0 < segment_count) :
    (processDataDelayEffect input sample_rate segment_count stateNoise delayNoise).1 = input ∧
    (processDataDelayEffect input sample_rate segment_count stateNoise delayNoise).2.length =
      segment_count := by
  obtain ⟨m, rfl⟩ : ∃ m, segment_count = m + 1 := ⟨segment_count - 1, by omega⟩
  exact processDataDelayEffect_nonpos_rate input sample_rate m stateNoise delayNoise hsr

/-- C9 witness: the unvalidated pipeline applied at `sample_rate = -1`
on a concrete one-sample buffer. -/
theorem C9_no_config_validation_witness :
    (processDataDelayEffect [(1 : ℚ)] (-1) 1 [] (fun _ => [])).1 = [(1 : ℚ)] :=
  (C9_no_config_validation [(1 : ℚ)] (-1) 1 [] (fun _ => []) (by norm_num) (by norm_num)).1

lemma delayFold_inp (gain : ℚ) (d : ℕ) (l : List ℕ) (m : DelayMem) :
    (l.foldl (fun m i => if d ≤ i then delayStep gain d m i else m) m).inp = m.inp := by
  induction l generalizing m with
  | nil => rfl
  | cons a t ih =>
    rw [List.foldl_cons, ih]
    by_cases h : d ≤ a
    · rw [if_pos h]
      rfl
    · rw [if_neg h]

lemma delayFold_out (gain : ℚ) (d : ℕ) (input : List ℚ) :
    ∀ k, k ≤ input.length →
      ((List.range k).foldl (fun m i => if d ≤ i then delayStep gain d m i else m)
        (⟨input, input⟩ : DelayMem)).out =
      (List.range input.length).map (fun j =>
        if d ≤ j ∧ j < k then input.getD j 0 + gain * input.getD (j - d) 0
        else input.getD j 0) := by
  intro k
  induction k with
  | zero =>
    intro _
    simp only [List.range_zero, List.foldl_nil]
    rw [show (fun j => if d ≤ j ∧ j < 0 then input.getD j 0 + gain * input.getD (j - d) 0
        else input.getD j 0) = (fun j => input.getD j 0) from funext (fun j => by simp)]
    exact (map_range_getD_self input 0).symm
  | succ k ih =>
    intro hk
    rw [List.range_succ, List.foldl_append, List.foldl_cons, List.foldl_nil]
    have hout := ih (by omega)
    have hinp : ((List.range k).foldl (fun m i => if d ≤ i then delayStep gain d m i else m)
        (⟨input, input⟩ : DelayMem)).inp = input := delayFold_inp gain d _ _
    have hstep : ∀ (m : DelayMem) (i : ℕ), (delayStep gain d m i).out =
        m.out.set i (m.out.getD i 0 + gain * m.inp.getD (i - d) 0) := fun _ _ => rfl
    by_cases hd : d ≤ k
    · rw [if_pos hd]
      rw [hstep, hout, hinp, getD_map_range _ _ (by omega : k < input.length),
        if_neg (by omega : ¬ (d ≤ k ∧ k < k))]
      apply List.ext_getElem (by simp)
      intro j hj1 hj2
      rw [List.getElem_set]
      simp only [List.getElem_map, List.getElem_range]
      by_cases hjk : k = j
      · subst hjk
        rw [if_pos rfl, if_pos ⟨hd, by omega⟩]
      · rw [if_neg hjk]
        by_cases hcond : d ≤ j ∧ j < k
        · rw [if_pos hcond, if_pos ⟨hcond.1, by omega⟩]
        · have hnot : ¬ (d ≤ j ∧ j < k + 1) := by
            intro hc
            exact hcond ⟨hc.1, by omega⟩
          rw [if_neg hcond, if_neg hnot]
    · rw [if_neg hd, hout]
      apply List.map_congr_left
      intro j hj
      have hjlen := List.mem_range.mp hj
      by_cases hcond : d ≤ j ∧ j < k
      · rw [if_pos hcond, if_pos ⟨hcond.1, by omega⟩]
      · have hnot : ¬ (d ≤ j ∧ j < k + 1) := by
          intro hc
          rcases Nat.lt_succ_iff_lt_or_eq.mp hc.2 with h | h
          · exact hcond ⟨hc.1, h⟩
          · exact hd (h ▸ hc.1)
        rw [if_neg hcond, if_neg hnot]

/-- C10: `DelayEffect.process` never modifies its input array: running the
imperative copy-then-update statements as a state machine over the two
numpy arrays leaves the caller's `input_audio` exactly as it was, and the
freshly allocated `output_audio` copy carries all the delay-and-add
mixing, agreeing with the functional description of the effect. -/
theorem C10_input_untouched (sample_rate : ℤ) (delay_time gain : ℚ) (input : List ℚ) :
    (delayRun sample_rate delay_time gain input).inp = input ∧
    (delayRun sample_rate delay_time gain input).out =
      delayProcess sample_rate delay_time gain input := by
  by_cases h : 0 < pyInt (delay_time * (sample_rate : ℚ))
  · have h1 : delayRun sample_rate delay_time gain input =
        (List.range input.length).foldl
          (fun m i => if (pyInt (delay_time * (sample_rate : ℚ))).toNat ≤ i then
            delayStep gain (pyInt (delay_time * (sample_rate : ℚ))).toNat m i else m)
          ⟨input, input⟩ := by
      unfold delayRun
      rw [if_pos h]
    have h2 : delayProcess sample_rate delay_time gain input =
        (List.range input.length).map (fun i =>
          if (pyInt (delay_time * (sample_rate : ℚ))).toNat ≤ i then
            input.getD i 0 +
              gain * input.getD (i - (pyInt (delay_time * (sample_rate : ℚ))).toNat) 0
          else input.getD i 0) := by
      unfold delayProcess
      rw [if_pos h]
    rw [h1, h2]
    refine ⟨delayFold_inp _ _ _ _, ?_⟩
    rw [delayFold_out _ _ _ input.length (le_refl _)]
    apply List.map_congr_left
    intro j hj
    have hjlen := List.mem_range.mp hj
    by_cases hc : (pyInt (delay_time * (sample_rate : ℚ))).toNat ≤ j
    · rw [if_pos ⟨hc, hjlen⟩, if_pos hc]
    · rw [if_neg (fun hcc => hc hcc.1), if_neg hc]
  · have h1 : delayRun sample_rate delay_time gain input = ⟨input, input⟩ := by
      unfold delayRun
      rw [if_neg h]
    have h2 : delayProcess sample_rate delay_time gain input = input := by
      unfold delayProcess
      rw [if_neg h]
    rw [h1, h2]
    exact ⟨rfl, rfl⟩

/-- C7 witness: a concrete length-1 call (identity Perlin primitive, zero
offsets) returns `[0]` with no error signalled. -/
theorem C7_degenerate_normalization_silent_witness :
    generatePerlinNoiseSequence 1 0 (fun q => q) (fun _ => 0) = [0] :=
  (C7_degenerate_normalization_silent 0 (fun q => q) (fun _ => 0)).1

/-- C8 witness: a concrete file whose first segment succeeds and second
raises leaves exactly its first record in the batch, reported. -/
theorem C8_failure_isolation_witness :
    extractFileRecords true
        ([(⟨State.short, 0, 0, none⟩ : LabelRecord)].map some ++ none :: []) =
      ([(⟨State.short, 0, 0, none⟩ : LabelRecord)], true) :=
  (C8_failure_isolation LabelRecord [⟨State.short, 0, 0, none⟩] [] [] [] []).2.1

/-- C10 witness: a concrete run of the state machine leaves the caller's
array untouched. -/
theorem C10_input_untouched_witness :
    (delayRun 2 1 1 [(1 : ℚ), 5]).inp = [(1 : ℚ), 5] :=
  (C10_input_untouched 2 1 1 [(1 : ℚ), 5]).1

end GenAudio
